import Mathlib

/-!
Verification of the `rising` external-augmentation pipeline bridge.

The notebook `notebooks/external_augmentation.ipynb` defines the helper
`to_array` and composes a pipeline out of the bridge operations
`SeqToMap`, `ToTensor`, `Compose` (from `rising.transforms`) and
`numpy_collate` (from `rising.loading`).  The helper `to_array` is
embedded directly from the notebook source; the bridge operations, whose
source is not part of the supplied files, are modelled from the spec.
-/

namespace Rising

/-- Element types of numeric containers. -/
inductive Dtype where
  | uint8
  | int64
  | float32
  | float64
deriving DecidableEq, Repr

/-- A numpy-style array: an element type, a shape, and its flat
row-major data.  Numeric contents are modelled as integers, which is
exact for the pixel data the notebook handles. -/
structure NpArray where
  dtype : Dtype
  shape : List Nat
  data : List Int
deriving DecidableEq, Repr

/-- A torch-style tensor, structurally the same information as an
array, but a distinct type tag in the pipeline. -/
structure Tensor where
  dtype : Dtype
  shape : List Nat
  data : List Int
deriving DecidableEq, Repr

/-- A PIL image: a height-by-width grid of pixel values. -/
structure PILImage where
  height : Nat
  width : Nat
  pixels : List Int
deriving DecidableEq, Repr

/-- A field value flowing through the pipeline: a PIL image, a torch
tensor, a numpy array, a passthrough-safe scalar, or a string. -/
inductive Value where
  | pil (img : PILImage)
  | tensor (t : Tensor)
  | array (a : NpArray)
  | scalar (n : Int)
  | str (s : String)
deriving DecidableEq, Repr

/-- Embeds the notebook helper `to_array`: a PIL image becomes a
float32 numpy array with one extra leading axis (`np.array(inp,
np.float32, copy=False)[None]`), a torch tensor becomes a numpy array
via `inp.detach().cpu().numpy()`, and anything else is returned
unchanged. -/
def to_array : Value → Value
  | .pil img => .array ⟨Dtype.float32, 1 :: img.height :: img.width :: [], img.pixels⟩
  | .tensor t => .array ⟨t.dtype, t.shape, t.data⟩
  | .array a => .array a
  | .scalar n => .scalar n
  | .str s => .str s

/-- True exactly on PIL-image values. -/
def isPil : Value → Bool
  | .pil _ => true
  | _ => false

/-- True exactly on tensor values. -/
def isTensor : Value → Bool
  | .tensor _ => true
  | _ => false

end Rising

namespace Rising

/-- A Sample in mapping form: an ordered association of field names to
values. -/
abbrev SampleMap := List (String × Value)

/-- The synchronous validation errors of the pipeline bridge. -/
inductive BridgeError where
  | ShapeMismatch
  | UnsupportedFieldType
  | FieldSetMismatch
  | StackShapeMismatch
deriving DecidableEq, Repr

/-- Modelled from the spec: `SequenceToMapping` (`rising.transforms.SeqToMap`,
whose source is not among the supplied files).  The incoming Sample must
be an ordered sequence whose length equals the number of supplied field
names; the result pairs `fieldNames[i]` with the i-th positional
element; it fails with `ShapeMismatch` when the lengths differ. -/
def SeqToMap (fieldNames : List String) (xs : List Value) : Except BridgeError SampleMap :=
  if xs.length = fieldNames.length then .ok (fieldNames.zip xs)
  else .error .ShapeMismatch

/-- Looks a field up in a mapping-form Sample by name (first match). -/
def lookupField (s : SampleMap) (n : String) : Option Value :=
  match s.find? (fun p => p.1 == n) with
  | some p => some p.2
  | none => none

/-- The ordered field names of a mapping-form Sample. -/
def keys (s : SampleMap) : List String := s.map Prod.fst

/-- Modelled from the spec: the per-field conversion of `ArrayToTensor`
(`rising.transforms.ToTensor`, whose source is not among the supplied
files).  An array field becomes the equivalent tensor, preserving
shape, element type and numeric values; tensor, scalar and string
fields pass through unchanged; any other field fails with
`UnsupportedFieldType`. -/
def fieldToTensor : Value → Except BridgeError Value
  | .array a => .ok (.tensor ⟨a.dtype, a.shape, a.data⟩)
  | .tensor t => .ok (.tensor t)
  | .scalar n => .ok (.scalar n)
  | .str s => .ok (.str s)
  | .pil _ => .error .UnsupportedFieldType

/-- The total companion of `fieldToTensor`: what it produces on the
fields on which it succeeds. -/
def tensorize : Value → Value
  | .array a => .tensor ⟨a.dtype, a.shape, a.data⟩
  | v => v

/-- Modelled from the spec: `ArrayToTensor` applied to a mapping-form
Sample converts every field with `fieldToTensor`, stopping at the first
failing field. -/
def ToTensor : SampleMap → Except BridgeError SampleMap
  | [] => .ok []
  | p :: ps =>
    match fieldToTensor p.2 with
    | .ok v =>
      match ToTensor ps with
      | .ok rest => .ok ((p.1, v) :: rest)
      | .error e => .error e
    | .error e => .error e

/-- Whether two mapping-form Samples expose the same field-name set
(order irrelevant, the sets must match exactly). -/
def sameKeySet (a b : SampleMap) : Bool :=
  (keys a).all (fun n => (keys b).contains n) && (keys b).all (fun n => (keys a).contains n)

/-- The array representation of a field for collation: an array field
is used as is, a passthrough scalar is wrapped as a zero-dimensional
int64 array; other field kinds have no array representation at the
collation stage. -/
def asArray : Value → Option NpArray
  | .array a => some a
  | .scalar n => some ⟨Dtype.int64, [], [n]⟩
  | _ => none

/-- The array representation of the named field of a Sample, when it
exists. -/
def fieldArr (s : SampleMap) (n : String) : Option NpArray :=
  (lookupField s n).bind asArray

/-- Elementwise application of a fallible function along a list, in the
`Option` monad, failing when any element fails. -/
def mapO {α β : Type} (f : α → Option β) : List α → Option (List β)
  | [] => some []
  | x :: xs =>
    match f x, mapO f xs with
    | some y, some ys => some (y :: ys)
    | _, _ => none

/-- Modelled from the spec: stacking one field across a batch.  The
per-sample array representations are gathered and stacked along a new
leading axis of length equal to the number of samples; it fails when a
sample lacks the array representation or when the per-sample shapes or
element types are inconsistent. -/
def stackField (samples : List SampleMap) (n : String) : Option NpArray :=
  match mapO (fun s => fieldArr s n) samples with
  | none => none
  | some [] => none
  | some (a :: rest) =>
    if rest.all (fun b => b.shape == a.shape && b.dtype == a.dtype) then
      some ⟨a.dtype, (a :: rest).length :: a.shape, ((a :: rest).map NpArray.data).flatten⟩
    else none

/-- A Batch: per-field stacked arrays, keyed by field name. -/
abbrev Batch := List (String × NpArray)

/-- Modelled from the spec: `ArrayCollate` (`rising.loading.numpy_collate`,
whose source is not among the supplied files).  It first checks that
every sample's field-name set equals the first sample's, failing with
`FieldSetMismatch` otherwise; it then stacks each field of the first
sample's key list along a new leading batch axis, failing with
`StackShapeMismatch` when the per-sample field shapes or element types
are inconsistent.  No partial batch is produced on failure. -/
def ArrayCollate (samples : List SampleMap) : Except BridgeError Batch :=
  match samples with
  | [] => .error .FieldSetMismatch
  | first :: rest =>
    if rest.all (fun s => sameKeySet first s) then
      match mapO (fun n => (stackField (first :: rest) n).map (fun a => (n, a))) (keys first) with
      | some b => .ok b
      | none => .error .StackShapeMismatch
    else .error .FieldSetMismatch

/-- The kinds of TransformStage the pipeline distinguishes. -/
inductive StageKind where
  | shapeAdapter
  | arrayDomain
  | typeAdapter
  | tensorDomain
deriving DecidableEq, Repr

/-- Whether a stage kind expects mapping-form input: every stage after
the sequence-to-mapping adapter does. -/
def requiresMapping : StageKind → Bool
  | .shapeAdapter => false
  | _ => true

/-- Whether a stage kind requires tensor-typed input. -/
def requiresTensor : StageKind → Bool
  | .tensorDomain => true
  | _ => false

/-- The ordering invariant of a composed pipeline: every stage that
expects mapping input is preceded by a shape-adapter stage; the
type-adapter stage comes strictly after every array-domain stage; and
every stage requiring tensor input is strictly preceded by a
type-adapter stage. -/
def orderingOK (p : List StageKind) : Bool :=
  ((List.range p.length).all fun i =>
    !(requiresMapping (p.getD i .shapeAdapter)) ||
      (List.range i).any fun j => p.getD j .shapeAdapter == .shapeAdapter) &&
  ((List.range p.length).all fun i =>
    !(p.getD i .shapeAdapter == .typeAdapter) ||
      (List.range p.length).all fun j =>
        !(p.getD j .shapeAdapter == .arrayDomain) || decide (j < i)) &&
  ((List.range p.length).all fun j =>
    !(requiresTensor (p.getD j .shapeAdapter)) ||
      (List.range j).any fun i => p.getD i .shapeAdapter == .typeAdapter)

/-- Modelled from the spec: `Compose` (`rising.transforms.Compose`,
whose source is not among the supplied files) applies the listed stages
strictly in listed order, feeding each stage's output to the next. -/
def Compose {α : Type} (stages : List (α → α)) (x : α) : α :=
  stages.foldl (fun a f => f a) x

/-- The stage kinds of the pipeline the notebook builds: `SeqToMap`,
`ZeroMeanUnitVarianceTransform`, `ToTensor`, `Rot90`, `Mirror`. -/
def notebookStageKinds : List StageKind :=
  [.shapeAdapter, .arrayDomain, .typeAdapter, .tensorDomain, .tensorDomain]

theorem mapO_length {α β : Type} (f : α → Option β) (l : List α) (ys : List β)
    (h : mapO f l = some ys) : ys.length = l.length := by
  induction l generalizing ys with
  | nil => simp [mapO] at h; subst h; rfl
  | cons x xs ih =>
    cases hx : f x with
    | none => simp [mapO, hx] at h
    | some y =>
      cases hr : mapO f xs with
      | none => simp [mapO, hx, hr] at h
      | some zs =>
        simp [mapO, hx, hr] at h
        subst h
        simp [ih zs hr]

theorem mapO_map {α β : Type} (f : α → Option β) (l : List α) (ys : List β)
    (h : mapO f l = some ys) : l.map f = ys.map some := by
  induction l generalizing ys with
  | nil => simp [mapO] at h; subst h; rfl
  | cons x xs ih =>
    cases hx : f x with
    | none => simp [mapO, hx] at h
    | some y =>
      cases hr : mapO f xs with
      | none => simp [mapO, hx, hr] at h
      | some zs =>
        simp [mapO, hx, hr] at h
        subst h
        simp [hx, ih zs hr]

theorem mapO_isSome {α β : Type} (f : α → Option β) (l : List α)
    (h : ∀ x ∈ l, (f x).isSome) : ∃ ys, mapO f l = some ys := by
  induction l with
  | nil => exact ⟨[], rfl⟩
  | cons x xs ih =>
    obtain ⟨ys, hys⟩ := ih fun z hz => h z (List.mem_cons_of_mem _ hz)
    have hx := h x (List.mem_cons_self x xs)
    obtain ⟨y, hy⟩ := Option.isSome_iff_exists.mp hx
    exact ⟨y :: ys, by simp [mapO, hy, hys]⟩

theorem mapO_mem {α β : Type} (f : α → Option β) (l : List α) (ys : List β)
    (h : mapO f l = some ys) (y : β) (hy : y ∈ ys) : ∃ x ∈ l, f x = some y := by
  induction l generalizing ys with
  | nil => simp [mapO] at h; subst h; simp at hy
  | cons x xs ih =>
    cases hx : f x with
    | none => simp [mapO, hx] at h
    | some z =>
      cases hr : mapO f xs with
      | none => simp [mapO, hx, hr] at h
      | some zs =>
        simp [mapO, hx, hr] at h
        subst h
        rcases List.mem_cons.mp hy with hz | hz
        · exact ⟨x, List.mem_cons_self x xs, hz ▸ hx⟩
        · obtain ⟨w, hw, hfw⟩ := ih zs hr hz
          exact ⟨w, List.mem_cons_of_mem _ hw, hfw⟩

theorem mapO_mem_of_mem {α β : Type} (f : α → Option β) (l : List α) (ys : List β)
    (h : mapO f l = some ys) (x : α) (hx : x ∈ l) (y : β) (hxy : f x = some y) : y ∈ ys := by
  induction l generalizing ys with
  | nil => simp at hx
  | cons z zs ih =>
    cases hz : f z with
    | none => simp [mapO, hz] at h
    | some w =>
      cases hr : mapO f zs with
      | none => simp [mapO, hz, hr] at h
      | some ws =>
        simp [mapO, hz, hr] at h
        subst h
        rcases List.mem_cons.mp hx with hxz | hxz
        · subst hxz
          rw [hz] at hxy
          simp at hxy
          simp [hxy]
        · exact List.mem_cons_of_mem _ (ih ws hr hxz)

theorem mapO_none_of_mem {α β : Type} (f : α → Option β) (l : List α) (x : α)
    (hx : x ∈ l) (hfx : f x = none) : mapO f l = none := by
  induction l with
  | nil => simp at hx
  | cons z zs ih =>
    rcases List.mem_cons.mp hx with hxz | hxz
    · subst hxz
      simp [mapO, hfx]
    · cases hz : f z with
      | none => simp [mapO, hz]
      | some w => simp [mapO, hz, ih hxz]

theorem lookupField_zip (names : List String) (xs : List Value)
    (hlen : xs.length = names.length) (hnd : names.Nodup)
    (i : Nat) (hi : i < names.length) :
    lookupField (names.zip xs) (names.getD i "") = some (xs.getD i (Value.scalar 0)) := by
  induction names generalizing xs i with
  | nil => simp at hi
  | cons n ns ih =>
    cases xs with
    | nil => simp at hlen
    | cons x xs2 =>
      cases i with
      | zero =>
        simp [lookupField, List.zip_cons_cons, List.find?]
      | succ k =>
        have hk : k < ns.length := by simpa using hi
        have hmem : ns.getD k "" ∈ ns := by
          rw [List.getD_eq_getElem _ _ hk]
          exact List.getElem_mem hk
        have hne : (n == ns.getD k "") = false := by
          have hneq : n ≠ ns.getD k "" := fun h => (List.nodup_cons.mp hnd).1 (h ▸ hmem)
          exact beq_eq_false_iff_ne.mpr hneq
        have hlen2 : xs2.length = ns.length := by simpa using hlen
        have hrec := ih xs2 hlen2 (List.nodup_cons.mp hnd).2 k hk
        have hstep : List.find? (fun p => p.1 == ns.getD k "") ((n, x) :: ns.zip xs2) =
            List.find? (fun p => p.1 == ns.getD k "") (ns.zip xs2) :=
          List.find?_cons_of_neg _ (by rw [Bool.not_eq_true]; exact hne)
        rw [List.getD_cons_succ, List.getD_cons_succ, List.zip_cons_cons]
        unfold lookupField
        rw [hstep]
        exact hrec

/-- C9: the dataset-side helper `to_array` is the identity on any input
that is neither a PIL image nor a torch tensor, and it is idempotent:
applying it twice to any input equals applying it once. -/
theorem to_array_id_and_idem :
    (∀ v : Value, isPil v = false → isTensor v = false → to_array v = v) ∧
    (∀ v : Value, to_array (to_array v) = to_array v) := by
  constructor
  · intro v hp ht
    cases v with
    | pil img => simp [isPil] at hp
    | tensor t => simp [isTensor] at ht
    | array a => rfl
    | scalar n => rfl
    | str s => rfl
  · intro v
    cases v <;> rfl

/-- Closed instance of `to_array_id_and_idem` at concrete inputs. -/
theorem to_array_id_and_idem_inst :
    to_array (Value.array ⟨Dtype.uint8, [2], [5, 7]⟩) = Value.array ⟨Dtype.uint8, [2], [5, 7]⟩ ∧
    to_array (to_array (Value.pil ⟨2, 2, [0, 1, 2, 3]⟩)) = to_array (Value.pil ⟨2, 2, [0, 1, 2, 3]⟩) :=
  ⟨to_array_id_and_idem.1 (Value.array ⟨Dtype.uint8, [2], [5, 7]⟩) rfl rfl,
   to_array_id_and_idem.2 (Value.pil ⟨2, 2, [0, 1, 2, 3]⟩)⟩

/-- C10: on a PIL image of height H and width W, `to_array` returns a
float32 numpy array of shape (1, H, W) whose values are the image's
pixel values. -/
theorem to_array_pil (img : PILImage) :
    to_array (.pil img) =
      .array ⟨Dtype.float32, 1 :: img.height :: img.width :: [], img.pixels⟩ := rfl

/-- C1: on an ordered sequence of length N with N field names supplied,
`SeqToMap` produces a mapping of exactly N entries, keyed in order by
the given names, where the value looked up under `fieldNames[i]` is the
i-th positional element of the input sequence. -/
theorem SeqToMap_spec (fieldNames : List String) (xs : List Value)
    (hlen : xs.length = fieldNames.length) (hnd : fieldNames.Nodup) :
    ∃ m : SampleMap, SeqToMap fieldNames xs = .ok m ∧
      m.length = fieldNames.length ∧
      keys m = fieldNames ∧
      ∀ i, i < fieldNames.length →
        lookupField m (fieldNames.getD i "") = some (xs.getD i (Value.scalar 0)) := by
  refine ⟨fieldNames.zip xs, ?_, ?_, ?_, ?_⟩
  · simp [SeqToMap, hlen]
  · simp [List.length_zip, hlen]
  · simpa [keys] using List.map_fst_zip fieldNames xs (le_of_eq hlen.symm)
  · intro i hi
    exact lookupField_zip fieldNames xs hlen hnd i hi

/-- Closed instance of `SeqToMap_spec` at the spec's example input. -/
theorem SeqToMap_spec_inst :
    ∃ m : SampleMap,
      SeqToMap ["data", "label"] [Value.array ⟨Dtype.float32, [1, 2, 2], [1, 2, 3, 4]⟩, Value.scalar 3] = .ok m ∧
      m.length = (["data", "label"] : List String).length ∧
      keys m = ["data", "label"] ∧
      ∀ i, i < (["data", "label"] : List String).length →
        lookupField m ((["data", "label"] : List String).getD i "") =
          some (([Value.array ⟨Dtype.float32, [1, 2, 2], [1, 2, 3, 4]⟩, Value.scalar 3] : List Value).getD i (Value.scalar 0)) :=
  SeqToMap_spec ["data", "label"] [Value.array ⟨Dtype.float32, [1, 2, 2], [1, 2, 3, 4]⟩, Value.scalar 3]
    (by decide) (by decide)

/-- C6: `SeqToMap` fails with `ShapeMismatch` exactly when the incoming
sequence's length differs from the number of supplied field names; on
success it returns the pairing of the names with the original elements,
leaving the source sequence untouched. -/
theorem SeqToMap_error_iff (fieldNames : List String) (xs : List Value) :
    (SeqToMap fieldNames xs = .error .ShapeMismatch ↔ xs.length ≠ fieldNames.length) ∧
    (xs.length = fieldNames.length → SeqToMap fieldNames xs = .ok (fieldNames.zip xs)) := by
  constructor
  · constructor
    · intro h heq
      simp [SeqToMap, heq] at h
    · intro hne
      simp [SeqToMap, hne]
  · intro heq
    simp [SeqToMap, heq]

/-- Closed instance of `SeqToMap_error_iff` at concrete inputs. -/
theorem SeqToMap_error_iff_inst :
    SeqToMap ["data", "label"] [Value.scalar 7, Value.str "a"] =
      .ok [("data", Value.scalar 7), ("label", Value.str "a")] :=
  (SeqToMap_error_iff ["data", "label"] [Value.scalar 7, Value.str "a"]).2 rfl

/-- C3: `Compose` applies stages strictly in listed order (the head
stage runs first, its output feeding the composition of the rest), and
the pipeline the notebook composes satisfies the ordering invariant:
the shape adapter precedes every stage expecting mapping input, and the
type adapter runs strictly after all array-domain stages and strictly
before every stage requiring tensor input. -/
theorem Compose_order_and_notebook_invariant :
    (∀ (α : Type) (f : α → α) (fs : List (α → α)) (x : α),
      Compose (f :: fs) x = Compose fs (f x)) ∧
    (∀ (α : Type) (x : α), Compose ([] : List (α → α)) x = x) ∧
    orderingOK notebookStageKinds = true :=
  ⟨fun _ _ _ _ => rfl, fun _ _ => rfl, by decide⟩

theorem ToTensor_ok_of_noPil (m : SampleMap) (h : ∀ p ∈ m, isPil p.2 = false) :
    ToTensor m = .ok (m.map fun p => (p.1, tensorize p.2)) := by
  induction m with
  | nil => rfl
  | cons p ps ih =>
    have hp : isPil p.2 = false := h p (List.mem_cons_self p ps)
    have hf : fieldToTensor p.2 = .ok (tensorize p.2) := by
      cases hv : p.2 with
      | pil img => rw [hv] at hp; simp [isPil] at hp
      | tensor t => rfl
      | array a => rfl
      | scalar n => rfl
      | str s => rfl
    have hrest := ih fun q hq => h q (List.mem_cons_of_mem _ hq)
    simp [ToTensor, hf, hrest]

/-- C4: on a mapping-form Sample whose fields are each array-typed,
tensor-typed, or a passthrough-safe scalar or string, `ToTensor`
succeeds, replacing every array field by a tensor of the same element
type, shape and numeric values, and passing every non-array field
through unchanged. -/
theorem ToTensor_spec (m : SampleMap) (h : ∀ p ∈ m, isPil p.2 = false) :
    ToTensor m = .ok (m.map fun p => (p.1, tensorize p.2)) ∧
    (∀ a : NpArray, tensorize (.array a) = .tensor ⟨a.dtype, a.shape, a.data⟩) ∧
    (∀ t : Tensor, tensorize (.tensor t) = .tensor t) ∧
    (∀ n : Int, tensorize (.scalar n) = .scalar n) ∧
    (∀ s : String, tensorize (.str s) = .str s) :=
  ⟨ToTensor_ok_of_noPil m h, fun _ => rfl, fun _ => rfl, fun _ => rfl, fun _ => rfl⟩

/-- Closed instance of `ToTensor_spec` at a concrete Sample. -/
theorem ToTensor_spec_inst :
    ToTensor [("data", Value.array ⟨Dtype.float32, [1, 2], [5, 6]⟩), ("label", Value.scalar 3)] =
      .ok [("data", Value.tensor ⟨Dtype.float32, [1, 2], [5, 6]⟩), ("label", Value.scalar 3)] :=
  (ToTensor_spec
    [("data", Value.array ⟨Dtype.float32, [1, 2], [5, 6]⟩), ("label", Value.scalar 3)]
    (by decide)).1

theorem fieldToTensor_fix (v w : Value) (h : fieldToTensor v = .ok w) :
    fieldToTensor w = .ok w := by
  cases v with
  | pil img => simp [fieldToTensor] at h
  | tensor t => simp [fieldToTensor] at h; subst h; rfl
  | array a => simp [fieldToTensor] at h; subst h; rfl
  | scalar n => simp [fieldToTensor] at h; subst h; rfl
  | str s => simp [fieldToTensor] at h; subst h; rfl

/-- C5: `ToTensor` is idempotent where it succeeds: when
`ToTensor m = .ok m2`, a second application leaves `m2` unchanged,
because tensor-typed fields pass through unchanged. -/
theorem ToTensor_idem (m m2 : SampleMap) (h : ToTensor m = .ok m2) :
    ToTensor m2 = .ok m2 := by
  induction m generalizing m2 with
  | nil =>
    simp [ToTensor] at h
    subst h
    rfl
  | cons p ps ih =>
    cases hf : fieldToTensor p.2 with
    | error e => simp [ToTensor, hf] at h
    | ok v =>
      cases hr : ToTensor ps with
      | error e => simp [ToTensor, hf, hr] at h
      | ok rest =>
        simp [ToTensor, hf, hr] at h
        subst h
        have h1 := fieldToTensor_fix p.2 v hf
        have h2 := ih rest hr
        simp [ToTensor, h1, h2]

/-- Closed instance of `ToTensor_idem` at a concrete Sample. -/
theorem ToTensor_idem_inst :
    ToTensor [("x", Value.tensor ⟨Dtype.float32, [1], [2]⟩), ("label", Value.scalar 3)] =
      .ok [("x", Value.tensor ⟨Dtype.float32, [1], [2]⟩), ("label", Value.scalar 3)] :=
  ToTensor_idem [("x", Value.array ⟨Dtype.float32, [1], [2]⟩), ("label", Value.scalar 3)] _ rfl

theorem stackField_ok (first : SampleMap) (rest : List SampleMap) (n : String) (a0 : NpArray)
    (h0 : fieldArr first n = some a0)
    (hr : ∀ s ∈ rest, ∃ a : NpArray,
      fieldArr s n = some a ∧ a.shape = a0.shape ∧ a.dtype = a0.dtype) :
    ∃ st : NpArray, stackField (first :: rest) n = some st ∧
      st.dtype = a0.dtype ∧ st.shape = (rest.length + 1) :: a0.shape := by
  obtain ⟨as, has⟩ := mapO_isSome (fun s => fieldArr s n) rest
    (fun s hs => by obtain ⟨a, ha, _, _⟩ := hr s hs; simp [ha])
  have hlen : as.length = rest.length := mapO_length _ _ _ has
  have hwhole : mapO (fun s => fieldArr s n) (first :: rest) = some (a0 :: as) := by
    simp [mapO, h0, has]
  have hguard : as.all (fun b => b.shape == a0.shape && b.dtype == a0.dtype) = true := by
    rw [List.all_eq_true]
    intro b hb
    obtain ⟨s, hs, hfs⟩ := mapO_mem _ _ _ has b hb
    obtain ⟨a, ha, hsh, hdt⟩ := hr s hs
    rw [ha] at hfs
    have hab : a = b := by simpa using hfs
    subst hab
    simp [hsh, hdt]
  refine ⟨⟨a0.dtype, (a0 :: as).length :: a0.shape, ((a0 :: as).map NpArray.data).flatten⟩, ?_, rfl, ?_⟩
  · simp [stackField, hwhole, hguard]
  · simp [hlen]

theorem mapO_tag {β : Type} (g : String → Option β) (l : List String)
    (ys : List (String × β))
    (h : mapO (fun n => (g n).map (fun a => (n, a))) l = some ys) :
    ys.map Prod.fst = l := by
  induction l generalizing ys with
  | nil => simp [mapO] at h; subst h; rfl
  | cons n ns ih =>
    cases hg : g n with
    | none => simp [mapO, hg] at h
    | some a =>
      cases hrec : mapO (fun n2 => (g n2).map (fun a2 => (n2, a2))) ns with
      | none => simp [mapO, hg, hrec] at h
      | some zs =>
        simp [mapO, hg, hrec] at h
        subst h
        simp [ih zs hrec]

/-- C2: on a non-empty sequence of Samples that share the first
sample's field-name set and whose per-field array representations have
consistent shapes and element types, `ArrayCollate` succeeds with a
Batch keyed exactly by the first sample's field names, one stacked
array per field, whose leading axis has length equal to the number of
samples and whose remaining axes are the per-sample field shape. -/
theorem ArrayCollate_spec (first : SampleMap) (rest : List SampleMap)
    (hnd : (keys first).Nodup)
    (hkeys : ∀ s ∈ rest, sameKeySet first s = true)
    (hfields : ∀ n ∈ keys first, ∃ a0 : NpArray,
      fieldArr first n = some a0 ∧
      ∀ s ∈ rest, ∃ a : NpArray,
        fieldArr s n = some a ∧ a.shape = a0.shape ∧ a.dtype = a0.dtype) :
    ∃ b : Batch, ArrayCollate (first :: rest) = .ok b ∧
      b.map Prod.fst = keys first ∧
      (b.map Prod.fst).Nodup ∧
      b.length = (keys first).length ∧
      ∀ n ∈ keys first, ∀ a0 : NpArray, fieldArr first n = some a0 →
        ∃ st : NpArray, (n, st) ∈ b ∧ st.dtype = a0.dtype ∧
          st.shape = (rest.length + 1) :: a0.shape := by
  have hsome : ∀ n ∈ keys first,
      ((stackField (first :: rest) n).map (fun a => (n, a))).isSome := by
    intro n hn
    obtain ⟨a0, h0, hr⟩ := hfields n hn
    obtain ⟨st, hst, _, _⟩ := stackField_ok first rest n a0 h0 hr
    simp [hst]
  obtain ⟨b, hb⟩ :=
    mapO_isSome (fun n => (stackField (first :: rest) n).map (fun a => (n, a))) (keys first) hsome
  have hall : rest.all (fun s => sameKeySet first s) = true := List.all_eq_true.mpr hkeys
  have htag : b.map Prod.fst = keys first :=
    mapO_tag (stackField (first :: rest)) (keys first) b hb
  refine ⟨b, ?_, htag, ?_, ?_, ?_⟩
  · simp [ArrayCollate, hall, hb]
  · rw [htag]; exact hnd
  · exact mapO_length _ _ _ hb
  · intro n hn a0 h0
    obtain ⟨a1, h1, hr1⟩ := hfields n hn
    rw [h0] at h1
    have ha01 : a1 = a0 := by simpa using h1.symm
    subst ha01
    obtain ⟨st, hst, hdt, hsh⟩ := stackField_ok first rest n a1 h0 hr1
    refine ⟨st, ?_, hdt, hsh⟩
    exact mapO_mem_of_mem _ _ _ hb n hn (n, st) (by simp [hst])

/-- Closed instance of `ArrayCollate_spec` at two one-field Samples. -/
theorem ArrayCollate_spec_inst :
    ∃ b : Batch,
      ArrayCollate [[("x", Value.array ⟨Dtype.float32, [1, 2, 2], [1, 2, 3, 4]⟩)],
                    [("x", Value.array ⟨Dtype.float32, [1, 2, 2], [5, 6, 7, 8]⟩)]] = .ok b ∧
      b.map Prod.fst = keys [("x", Value.array ⟨Dtype.float32, [1, 2, 2], [1, 2, 3, 4]⟩)] ∧
      (b.map Prod.fst).Nodup ∧
      b.length = (keys [("x", Value.array ⟨Dtype.float32, [1, 2, 2], [1, 2, 3, 4]⟩)]).length ∧
      ∀ n ∈ keys [("x", Value.array ⟨Dtype.float32, [1, 2, 2], [1, 2, 3, 4]⟩)],
        ∀ a0 : NpArray,
        fieldArr [("x", Value.array ⟨Dtype.float32, [1, 2, 2], [1, 2, 3, 4]⟩)] n = some a0 →
        ∃ st : NpArray,
          (n, st) ∈ b ∧ st.dtype = a0.dtype ∧
          st.shape = (([[("x", Value.array ⟨Dtype.float32, [1, 2, 2], [5, 6, 7, 8]⟩)]] : List SampleMap).length + 1) :: a0.shape :=
  ArrayCollate_spec
    [("x", Value.array ⟨Dtype.float32, [1, 2, 2], [1, 2, 3, 4]⟩)]
    [[("x", Value.array ⟨Dtype.float32, [1, 2, 2], [5, 6, 7, 8]⟩)]]
    (by decide)
    (by decide)
    (by
      intro n hn
      simp [keys] at hn
      subst hn
      refine ⟨⟨Dtype.float32, [1, 2, 2], [1, 2, 3, 4]⟩, rfl, ?_⟩
      intro s hs
      simp at hs
      subst hs
      exact ⟨⟨Dtype.float32, [1, 2, 2], [5, 6, 7, 8]⟩, rfl, rfl, rfl⟩)

/-- C7: on a non-empty sequence of Samples, `ArrayCollate` fails with
`FieldSetMismatch` when some sample's field-name set differs from the
first sample's, and fails with `StackShapeMismatch` when the field sets
agree but some sample's field shape differs from the first sample's;
the `Except` result on failure carries no partial Batch. -/
theorem ArrayCollate_errors (first : SampleMap) (rest : List SampleMap) :
    ((∃ s ∈ rest, sameKeySet first s = false) →
      ArrayCollate (first :: rest) = .error .FieldSetMismatch) ∧
    ((∀ s ∈ rest, sameKeySet first s = true) →
      ∀ n ∈ keys first, ∀ s ∈ rest, ∀ a0 a : NpArray,
        fieldArr first n = some a0 → fieldArr s n = some a → a.shape ≠ a0.shape →
        ArrayCollate (first :: rest) = .error .StackShapeMismatch) := by
  constructor
  · rintro ⟨s, hs, hfalse⟩
    have hall : rest.all (fun s2 => sameKeySet first s2) = false :=
      List.all_eq_false.mpr ⟨s, hs, by simp [hfalse]⟩
    simp [ArrayCollate, hall]
  · intro hkeys n hn s hs a0 a h0 ha hne
    have hsf : stackField (first :: rest) n = none := by
      cases hrmap : mapO (fun s2 => fieldArr s2 n) rest with
      | none =>
        have hw : mapO (fun s2 => fieldArr s2 n) (first :: rest) = none := by
          simp [mapO, h0, hrmap]
        simp [stackField, hw]
      | some as =>
        have hw : mapO (fun s2 => fieldArr s2 n) (first :: rest) = some (a0 :: as) := by
          simp [mapO, h0, hrmap]
        have hmem : a ∈ as := mapO_mem_of_mem _ rest as hrmap s hs a ha
        have hguard : as.all (fun b => b.shape == a0.shape && b.dtype == a0.dtype) = false :=
          List.all_eq_false.mpr ⟨a, hmem, by simp [hne]⟩
        simp [stackField, hw, hguard]
    have hnone :
        mapO (fun n2 => (stackField (first :: rest) n2).map (fun a2 => (n2, a2)))
          (keys first) = none :=
      mapO_none_of_mem _ _ n hn (by simp [hsf])
    have hall : rest.all (fun s2 => sameKeySet first s2) = true := List.all_eq_true.mpr hkeys
    simp [ArrayCollate, hall, hnone]

/-- Closed instance of `ArrayCollate_errors` at the spec's example
inputs: mismatched field sets, and mismatched field shapes. -/
theorem ArrayCollate_errors_inst :
    ArrayCollate [[("x", Value.scalar 1), ("y", Value.scalar 2)], [("x", Value.scalar 3)]] =
      .error .FieldSetMismatch ∧
    ArrayCollate [[("x", Value.array ⟨Dtype.float32, [2], [1, 2]⟩)],
                  [("x", Value.array ⟨Dtype.float32, [3], [3, 4, 5]⟩)]] =
      .error .StackShapeMismatch :=
  ⟨(ArrayCollate_errors [("x", Value.scalar 1), ("y", Value.scalar 2)]
      [[("x", Value.scalar 3)]]).1
    ⟨[("x", Value.scalar 3)], by decide, by decide⟩,
   (ArrayCollate_errors [("x", Value.array ⟨Dtype.float32, [2], [1, 2]⟩)]
      [[("x", Value.array ⟨Dtype.float32, [3], [3, 4, 5]⟩)]]).2
    (by decide) "x" (by decide)
    [("x", Value.array ⟨Dtype.float32, [3], [3, 4, 5]⟩)] (by decide)
    ⟨Dtype.float32, [2], [1, 2]⟩ ⟨Dtype.float32, [3], [3, 4, 5]⟩
    rfl rfl (by decide)⟩

/-- C8: `ArrayCollate` preserves numeric content and element types: in
any successful Batch, each field's stacked data is exactly the
concatenation, in sample order, of the contributing samples' field
data, and every contributing array's element type equals the stacked
field's element type. -/
theorem ArrayCollate_preserves (samples : List SampleMap) (b : Batch)
    (h : ArrayCollate samples = .ok b) :
    ∀ p ∈ b, ∃ arrs : List NpArray,
      samples.map (fun s => fieldArr s p.1) = arrs.map some ∧
      p.2.data = (arrs.map NpArray.data).flatten ∧
      ∀ a ∈ arrs, a.dtype = p.2.dtype := by
  intro p hp
  cases samples with
  | nil => simp [ArrayCollate] at h
  | cons first rest =>
    cases hall : rest.all (fun s => sameKeySet first s) with
    | false => simp [ArrayCollate, hall] at h
    | true =>
      cases hm : mapO (fun n => (stackField (first :: rest) n).map (fun a => (n, a)))
          (keys first) with
      | none => simp [ArrayCollate, hall, hm] at h
      | some b2 =>
        have hb2 : b2 = b := by simpa [ArrayCollate, hall, hm] using h
        subst hb2
        obtain ⟨n, hn, hfn⟩ := mapO_mem _ _ _ hm p hp
        cases hsf : stackField (first :: rest) n with
        | none => rw [hsf] at hfn; simp at hfn
        | some st =>
          rw [hsf] at hfn
          have hpn : p = (n, st) := by simpa using hfn.symm
          subst hpn
          cases hw : mapO (fun s => fieldArr s n) (first :: rest) with
          | none => simp [stackField, hw] at hsf
          | some ys =>
            cases ys with
            | nil => simp [stackField, hw] at hsf
            | cons a as =>
              cases hguard : as.all (fun b2 => b2.shape == a.shape && b2.dtype == a.dtype) with
              | false => simp [stackField, hw, hguard] at hsf
              | true =>
                have hst : st =
                    ⟨a.dtype, (a :: as).length :: a.shape, ((a :: as).map NpArray.data).flatten⟩ := by
                  simpa [stackField, hw, hguard] using hsf.symm
                refine ⟨a :: as, ?_, ?_, ?_⟩
                · exact mapO_map _ _ _ hw
                · rw [hst]
                · intro a2 ha2
                  rcases List.mem_cons.mp ha2 with h2 | h2
                  · subst h2; rw [hst]
                  · have := List.all_eq_true.mp hguard a2 h2
                    have hdt : a2.dtype = a.dtype := by
                      simp at this
                      exact this.2
                    rw [hdt, hst]

/-- Closed instance of `ArrayCollate_preserves` at a concrete batch. -/
theorem ArrayCollate_preserves_inst :
    ∃ arrs : List NpArray,
      ([[("x", Value.array ⟨Dtype.uint8, [2], [1, 2]⟩)],
        [("x", Value.array ⟨Dtype.uint8, [2], [3, 4]⟩)]] : List SampleMap).map
          (fun s => fieldArr s ("x", (⟨Dtype.uint8, [2, 2], [1, 2, 3, 4]⟩ : NpArray)).1) =
        arrs.map some ∧
      ("x", (⟨Dtype.uint8, [2, 2], [1, 2, 3, 4]⟩ : NpArray)).2.data =
        (arrs.map NpArray.data).flatten ∧
      ∀ a ∈ arrs, a.dtype = ("x", (⟨Dtype.uint8, [2, 2], [1, 2, 3, 4]⟩ : NpArray)).2.dtype :=
  ArrayCollate_preserves
    [[("x", Value.array ⟨Dtype.uint8, [2], [1, 2]⟩)],
     [("x", Value.array ⟨Dtype.uint8, [2], [3, 4]⟩)]]
    [("x", ⟨Dtype.uint8, [2, 2], [1, 2, 3, 4]⟩)]
    rfl
    ("x", ⟨Dtype.uint8, [2, 2], [1, 2, 3, 4]⟩)
    (by decide)

end Rising
